import Mathlib

/-!
# VidersTv/muxer: session registry, playlist builder and segment server

A shallow embedding of `src/muxer/rtmp.go` (function `New`) and `src/muxer/stream.go`.

* Go strings are Lean `String`s; the helpers of package `strings` that the code
  calls (`SplitN`, `HasSuffix`, `TrimSuffix`) are defined on the character lists.
* The two registry maps `mp` and `idMp` are total functions; a missing key of
  `mp` is `none` (the nil `*Stream`), a missing key of `idMp` is `""` (Go's zero
  value), exactly what an index expression on a Go map returns.
* A run-time panic (index out of range, nil dereference, failed type assertion)
  is the explicit outcome `Response.panic` / `none`.
* The collaborators that live outside this repository (token decoding, the
  coordination store client, the segment cache, the layout of a timestamp) are
  arguments of the functions that call them.
-/

namespace Muxer

/-! ## Package `strings` -/

/-- Go `strings.HasSuffix`. -/
def HasSuffix (s suffix : String) : Bool :=
  suffix.data.isSuffixOf s.data

/-- Go `strings.TrimSuffix`. -/
def TrimSuffix (s suffix : String) : String :=
  if HasSuffix s suffix then ⟨s.data.take (s.data.length - suffix.data.length)⟩ else s

/-- First occurrence of the separator `/`: the text before it and the text after it
(`strings.Index` followed by the two slices of `genSplit`). -/
def cutSlash : List Char → Option (List Char × List Char)
  | [] => none
  | c :: cs =>
    if c = '/' then some ([], cs)
    else match cutSlash cs with
      | none => none
      | some (a, b) => some (c :: a, b)

/-- The loop of Go `strings.genSplit` for the separator `/`: at most `n` pieces, the
last piece is the unsplit remainder. -/
def splitSlash : Nat → List Char → List (List Char)
  | 0, _ => []
  | 1, s => [s]
  | n + 2, s =>
    match cutSlash s with
    | none => [s]
    | some (a, b) => a :: splitSlash (n + 1) b

/-- Go `strings.SplitN(s, "/", n)` for `n ≥ 0`. -/
def SplitN (s : String) (n : Nat) : List String :=
  (splitSlash n s.data).map String.mk

/-! ## `primitive.ObjectID` (12 bytes, written as 24 hexadecimal digits) -/

/-- The 12-byte object id of the MongoDB driver. -/
structure ObjectID where
  bytes : List (Fin 256)
  size : bytes.length = 12
deriving DecidableEq

/-- Two lower-case hexadecimal digits of one byte (`hex.EncodeToString`). -/
def hexByte (b : Fin 256) : List Char :=
  [Nat.digitChar (b.val / 16), Nat.digitChar (b.val % 16)]

/-- Hexadecimal text of a byte string. -/
def hexEncode : List (Fin 256) → List Char
  | [] => []
  | b :: bs => hexByte b ++ hexEncode bs

/-- Go `ObjectID.Hex`. -/
def ObjectID.Hex (id : ObjectID) : String :=
  ⟨hexEncode id.bytes⟩

/-- Value of one hexadecimal digit, either case (`encoding/hex.fromHexChar`). -/
def fromHexChar (c : Char) : Option Nat :=
  if '0' ≤ c ∧ c ≤ '9' then some (c.toNat - '0'.toNat)
  else if 'a' ≤ c ∧ c ≤ 'f' then some (c.toNat - 'a'.toNat + 10)
  else if 'A' ≤ c ∧ c ≤ 'F' then some (c.toNat - 'A'.toNat + 10)
  else none

/-- Go `hex.Decode`: pairs of digits to bytes, `none` on an invalid digit or odd length. -/
def hexDecode : List Char → Option (List (Fin 256))
  | [] => some []
  | [_] => none
  | a :: b :: rest =>
    match fromHexChar a, fromHexChar b, hexDecode rest with
    | some x, some y, some bs => some (Fin.ofNat (x * 16 + y) :: bs)
    | _, _, _ => none

/-- Go `primitive.ObjectIDFromHex`: exactly 24 hexadecimal digits, else an error. -/
def ObjectIDFromHex (s : String) : Option ObjectID :=
  if s.data.length ≠ 24 then none
  else match hexDecode s.data with
    | none => none
    | some bs => if h : bs.length = 12 then some ⟨bs, h⟩ else none

/-! ## Data model (`stream.go` and the fields of the collaborators that are used) -/

/-- Instant of Go `time.Time`, in nanoseconds since the zero time (January 1, year 1, UTC). -/
structure Time where
  nsec : Int
deriving DecidableEq, Repr

/-- The zero `time.Time{}`. -/
def Time.zero : Time := ⟨0⟩

/-- Go `Time.IsZero`. -/
def Time.IsZero (t : Time) : Bool := t.nsec == 0

/-- Go `Time.Add` with a `time.Duration` in nanoseconds (the saturation of Go at the ends of
its 64-bit second count, hundreds of billions of years away, is left out). -/
def Time.Add (t : Time) (d : Int) : Time := ⟨t.nsec + d⟩

/-- Go `time.Second` in nanoseconds. -/
def Second : Int := 1000000000

/-- Go `time.Millisecond` in nanoseconds. -/
def Millisecond : Int := 1000000

/-- One segment of the external cache, read through `Name()`, `SeqNum()`, `Start()` and
`Duration()` (a `time.Duration`, nanoseconds). -/
structure Item where
  Name : String
  SeqNum : Int
  Start : Time
  Duration : Int
deriving DecidableEq, Repr

/-- The external segment cache as the code reads it: `Items()`, `Done()`, `GetItem(name)`. -/
structure Cache where
  Items : List Item
  Done : Bool
  GetItem : String → Option Item

/-- The fields of `av.Info` that the code reads. -/
structure Info where
  ID : String
  Publisher : Bool
  App : String
  Name : String
deriving DecidableEq, Repr

/-- The rendition of `structures.JwtMuxerPayload`. -/
structure Variant where
  Name : String
deriving DecidableEq

/-- The decoded publish token `structures.JwtMuxerPayload`. -/
structure JwtMuxerPayload where
  StreamID : ObjectID
  Variant : Variant
deriving DecidableEq

/-- The session `Stream` of `stream.go`; `Cache` is the nil pointer until publishing starts. -/
structure Stream where
  info : Info
  Cache : Option Cache
  MuxerPayload : JwtMuxerPayload

/-- The two maps `mp` and `idMp` of `New`, guarded by the one mutex `mtx`. -/
structure Registry where
  mp : String → Option Stream
  idMp : String → String

/-- The maps as `New` creates them. -/
def Registry.empty : Registry := ⟨fun _ => none, fun _ => ""⟩

/-- The key of `idMp`: `fmt.Sprintf("%s-%s", streamID.Hex(), variant)`. -/
def idKey (streamID : ObjectID) (variant : String) : String :=
  streamID.Hex ++ "-" ++ variant

/-- The playlist key: `fmt.Sprintf("live-playlists:%s:%s", streamID.Hex(), variant)`. -/
def playlistKey (streamID : ObjectID) (variant : String) : String :=
  "live-playlists:" ++ streamID.Hex ++ ":" ++ variant

/-- The address key: `fmt.Sprintf("live-playlists:%s:%s:ip", streamID.Hex(), variant)`. -/
def ipKey (streamID : ObjectID) (variant : String) : String :=
  "live-playlists:" ++ streamID.Hex ++ ":" ++ variant ++ ":ip"

/-! ## Session registry: `AuthStream` and `HandlePublisher` -/

/-- The two map writes of `AuthStream` (rtmp.go 60-66). -/
def register (st : Registry) (info : Info) (pl : JwtMuxerPayload) : Registry :=
  { mp := fun k => if k = info.ID then some ⟨info, none, pl⟩ else st.mp k
    idMp := fun k => if k = idKey pl.StreamID pl.Variant.Name then info.ID else st.idMp k }

/-- The callback `AuthStream` (rtmp.go 45-72): the answer and the registry afterwards.
`DecodeJwt` is the token decoder with the configured secret applied. -/
def AuthStream (DecodeJwt : String → Option JwtMuxerPayload) (st : Registry) (info : Info) :
    Bool × Registry :=
  if !info.Publisher then (false, st)
  else if info.App = "transmux" then
    match DecodeJwt info.Name with
    | none => (false, st)
    | some pl => (true, register st info pl)
  else (false, st)

/-- The registry effect of `HandlePublisher` (rtmp.go 73-154): it reads `mp[info.ID]` and
stores the new cache in that session; a nil session is dereferenced (`none`). Nothing else
in the callback, in its goroutine or in their deferred calls writes `mp` or `idMp`. -/
def HandlePublisher (st : Registry) (info : Info) (cache : Cache) : Option Registry :=
  match st.mp info.ID with
  | none => none
  | some stream =>
    some { st with mp := fun k => if k = info.ID then some { stream with Cache := some cache }
                                  else st.mp k }

/-- What can happen to the registry of a running server. -/
inductive Event where
  /-- The transport calls `AuthStream`. -/
  | auth (info : Info)
  /-- The transport calls `HandlePublisher`, which attaches `cache`. -/
  | publish (info : Info) (cache : Cache)
  /-- The reader stops running and `HandlePublisher` returns (with its deferred `cancel`). -/
  | publisherReturns (info : Info)
  /-- The parent context is cancelled: the loops render once more and stop, the servers shut down. -/
  | contextCancelled

/-- One event on the registry; `none` is a panic. The last two events run no statement that
writes `mp` or `idMp`. -/
def step (DecodeJwt : String → Option JwtMuxerPayload) (st : Registry) : Event → Option Registry
  | .auth info => some (AuthStream DecodeJwt st info).2
  | .publish info cache => HandlePublisher st info cache
  | .publisherReturns _ => some st
  | .contextCancelled => some st

/-- A sequence of events, stopping at a panic. -/
def run (DecodeJwt : String → Option JwtMuxerPayload) : Registry → List Event → Option Registry
  | st, [] => some st
  | st, e :: es =>
    match step DecodeJwt st e with
    | none => none
    | some st1 => run DecodeJwt st1 es

/-! ## Segment server: the `fasthttp` handler -/

/-- What the coordination store client hands back as `interface{}`. -/
inductive RedisVal where
  | str (s : String)
  | other

/-- Outcome of one request. -/
inductive Response where
  /-- A status code and a body (the default status is 200). -/
  | status (code : Nat) (body : String)
  /-- Status 200, `Content-Type: video/MP2T`, the body streamed from the segment. -/
  | segment (item : Item)
  /-- A run-time panic inside the handler. -/
  | panic
deriving DecidableEq, Repr

/-- The first registry read of the handler (rtmp.go 205-211): `none` is the 404. -/
def Lookup (st : Registry) (streamID : ObjectID) (variant : String) : Option String :=
  let id := st.idMp (idKey streamID variant)
  if id = "" then none else some id

/-- The second registry read of the handler (rtmp.go 213-219): `none` is the 404. -/
def Get (st : Registry) (id : String) : Option Stream :=
  st.mp id

/-- The segment branch of the handler (rtmp.go 203-249). `AddWriter` tells whether
`item.AddWriter` succeeds. A session whose cache is still the nil pointer makes
`stream.Cache.GetItem` dereference nil. -/
def serveSegment (AddWriter : Item → Bool) (st : Registry) (streamID : ObjectID)
    (variant segmentName : String) : Response :=
  let segmentName := TrimSuffix segmentName ".ts"
  match Lookup st streamID variant with
  | none => .status 404 ""
  | some id =>
    match Get st id with
    | none => .status 404 ""
    | some stream =>
      match stream.Cache with
      | none => .panic
      | some cache =>
        match cache.GetItem segmentName with
        | none => .status 404 ""
        | some item => if AddWriter item then .segment item else .status 500 ""

/-- The playlist branch of the handler (rtmp.go 189-198). `RedisGet` is the `Get` of the
coordination store client. -/
def servePlaylist (RedisGet : String → Except String RedisVal) (streamID : ObjectID)
    (variant : String) : Response :=
  match RedisGet (playlistKey streamID variant) with
  | .error _ => .status 500 ""
  | .ok (.str val) => .status 200 val
  | .ok .other => .panic

/-- The request handler (rtmp.go 172-250) on the request path. An index past the end of
`splits` is a panic. -/
def Handler (RedisGet : String → Except String RedisVal) (AddWriter : Item → Bool)
    (st : Registry) (path : String) : Response :=
  let splits := SplitN path 4
  match splits[1]? with
  | none => .panic
  | some hex =>
    match ObjectIDFromHex hex with
    | none => .status 404 ""
    | some streamID =>
      match splits[2]? with
      | none => .panic
      | some variant =>
        match splits[3]? with
        | none => .panic
        | some segmentName =>
          if !HasSuffix segmentName ".ts" then
            if HasSuffix segmentName ".m3u8" then servePlaylist RedisGet streamID variant
            else .status 404 ""
          else serveSegment AddWriter st streamID variant segmentName

/-- Successive `AuthStream` calls, keeping the registry. -/
def authAll (DecodeJwt : String → Option JwtMuxerPayload) (st : Registry) (infos : List Info) :
    Registry :=
  infos.foldl (fun s i => (AuthStream DecodeJwt s i).2) st

/-! ## `float64` arithmetic and `%.2f`

A finite `float64` is the rational number it stands for. The model is exact for values in
the normal range of the format, which holds every value computed from a `time.Duration`
(magnitudes between one hundredth and `2 ^ 63`); the sign of a zero plays no part, as a
zero duration is replaced before it is printed. -/

/-- Nearest integer, ties to the even one. -/
def roundHalfEven (q : ℚ) : ℤ :=
  if q - ⌊q⌋ < 1 / 2 then ⌊q⌋
  else if 1 / 2 < q - ⌊q⌋ then ⌊q⌋ + 1
  else if ⌊q⌋ % 2 = 0 then ⌊q⌋ else ⌊q⌋ + 1

/-- IEEE 754 binary64 rounding of a magnitude: 53 significant bits, nearest, ties to even. -/
def f64mag (q : ℚ) : ℚ :=
  if q = 0 then 0
  else (roundHalfEven (q / 2 ^ (Int.log 2 q - 52)) : ℚ) * 2 ^ (Int.log 2 q - 52)

/-- IEEE 754 binary64 rounding of a real value (the format is sign and magnitude). -/
def f64 (q : ℚ) : ℚ := if q < 0 then -f64mag (-q) else f64mag q

/-- Go `math.Round`: nearest integer, halves away from zero. -/
def mathRound (x : ℚ) : ℚ := if x < 0 then -(⌊-x + 1 / 2⌋ : ℚ) else (⌊x + 1 / 2⌋ : ℚ)

/-- The duration shown for a segment (rtmp.go 122-125):
`math.Round(float64(item.Duration()/time.Millisecond)/10) / 100`, and 2 when that is 0.
The inner division is Go's integer division, which truncates. -/
def dur (d : Int) : ℚ :=
  let dur := f64 (mathRound (f64 (f64 ((d.tdiv Millisecond : Int) : ℚ) / 10)) / 100)
  if dur = 0 then 2 else dur

/-- A sign, the whole part and two decimals of a count of hundredths. -/
def centiText (neg : Bool) (h : Nat) : String :=
  (if neg then "-" else "") ++ Nat.repr (h / 100) ++ "." ++
    String.mk [Nat.digitChar (h % 100 / 10), Nat.digitChar (h % 10)]

/-- Go `fmt.Sprintf("%.2f", x)`: the sign, then the magnitude rounded to two decimals
(nearest, ties to even, on the exact value of the `float64`). -/
def Sprintf2f (x : ℚ) : String :=
  centiText (decide (x < 0)) (roundHalfEven (|x| * 100)).toNat

/-- Go `fmt.Sprintf("%d", n)`. -/
def Sprintd (n : Int) : String :=
  if n < 0 then "-" ++ Nat.repr n.natAbs else Nat.repr n.toNat

/-- A duration in nanoseconds as whole hundredths of a second, to the nearest hundredth,
halves away from zero. -/
def centis (d : Int) : Int :=
  if d < 0 then -((-d + 5000000) / 10000000) else (d + 5000000) / 10000000

/-- The hundredths shown on the duration line: `centis`, with 2.00 in place of 0.00. -/
def shown (d : Int) : Int := if centis d = 0 then 200 else centis d

/-! ## Playlist builder: one pass of the loop in `HandlePublisher`

The buffer is the list of the strings written to it, in order; its text is their
concatenation. `Done()` is read as one value for the whole pass. `RFC3339` is
`Time.Format(time.RFC3339)`. -/

/-- The end-of-list marker. -/
def ENDLIST : String := "#EXT-X-ENDLIST"

/-- The header written first (rtmp.go 108). -/
def header (seqNum : Int) : String :=
  "#EXTM3U\n#EXT-X-TARGETDURATION:4\n#EXT-X-VERSION:4\n#EXT-X-MEDIA-SEQUENCE:" ++
    Sprintd seqNum ++ "\n"

/-- The three writes for one segment (rtmp.go 121-127). -/
def writeItem (RFC3339 : Time → String) (start : Time) (item : Item) : List String :=
  ["#EXT-X-PROGRAM-DATE-TIME:" ++ RFC3339 start ++ "\n",
   "#EXTINF: " ++ Sprintf2f (dur item.Duration) ++ ",live\n",
   item.Name ++ ".ts\n"]

/-- The loop over the items (rtmp.go 109-131), from the current `previousStart` and
`previousDuration`: the strings it writes. -/
def walk (RFC3339 : Time → String) (done : Bool) : Time → Int → List Item → List String
  | _, _, [] => []
  | previousStart, previousDuration, item :: rest =>
    if item.Start.IsZero && done then []
    else
      let start := if item.Start.IsZero then previousStart.Add previousDuration else item.Start
      writeItem RFC3339 start item ++
        (if item.Start.IsZero then [] else walk RFC3339 done start item.Duration rest)

/-- The media sequence number (rtmp.go 104-107): that of the first item, 0 without items. -/
def seqNum : List Item → Int
  | [] => 0
  | first :: _ => first.SeqNum

/-- One render pass (rtmp.go 102-135): everything written to the buffer. -/
def render (RFC3339 : Time → String) (items : List Item) (done : Bool) : List String :=
  [header (seqNum items)] ++ walk RFC3339 done Time.zero 0 items ++
    (if done then [ENDLIST] else [])

/-- The playlist text, `buf.String()`. -/
def playlist (RFC3339 : Time → String) (items : List Item) (done : Bool) : String :=
  String.join (render RFC3339 items done)

/-- Number of positions of `text` at which `pat` begins. -/
def occurrences (pat : List Char) : List Char → Nat
  | [] => 0
  | c :: cs => (if pat.isPrefixOf (c :: cs) then 1 else 0) + occurrences pat cs

/-- The characters of a list of strings, one after the other. -/
def flat : List String → List Char
  | [] => []
  | s :: rest => s.data ++ flat rest

/-- A piece of text in which the marker cannot begin, whatever follows. -/
def Neutral (s : List Char) : Prop :=
  ∀ rest, occurrences ENDLIST.data (s ++ rest) = occurrences ENDLIST.data rest

/-- The writes for segments that all carry their own start. -/
def ownEntries (RFC3339 : Time → String) : List Item → List String
  | [] => []
  | item :: rest => writeItem RFC3339 item.Start item ++ ownEntries RFC3339 rest

/-- The previous start plus the previous duration after the segments `pre` were written
with their own starts; before any segment both are zero. -/
def tailStart (pre : List Item) : Time :=
  match pre.getLast? with
  | none => Time.zero.Add 0
  | some p => p.Start.Add p.Duration

/-- Go `Time.Before`. -/
abbrev Time.Before (a b : Time) : Prop := a.nsec < b.nsec

/-! ## Sample data -/

/-- The object id whose twelve bytes are all `b`. -/
def sampleID (b : Fin 256) : ObjectID := ⟨List.replicate 12 b, by simp⟩

/-- A token decoder that knows two tokens, for two renditions of one stream. -/
def sampleDecode (token : String) : Option JwtMuxerPayload :=
  if token = "token-source" then some ⟨sampleID 1, ⟨"source"⟩⟩
  else if token = "token-720p" then some ⟨sampleID 1, ⟨"720p"⟩⟩
  else none

/-- A publisher of the `source` rendition on connection `id`. -/
def samplePublisher (id : String) : Info := ⟨id, true, "transmux", "token-source"⟩

/-- One finished segment. -/
def sampleItem : Item := ⟨"seg0", 0, ⟨5000000000⟩, 4000000000⟩

/-- A cache holding `sampleItem`. -/
def sampleCache : Cache :=
  ⟨[sampleItem], false, fun name => if name = "seg0" then some sampleItem else none⟩

/-- A store client that reports every key as missing, by an error. -/
def missingStore (_key : String) : Except String RedisVal := .error "redis: nil"

/-- The registry after `samplePublisher id` was registered in the empty registry and
`HandlePublisher` attached `sampleCache`. -/
def sampleAttached (id : String) : Registry :=
  { mp := fun k =>
      if k = id then some ⟨samplePublisher id, some sampleCache, ⟨sampleID 1, ⟨"source"⟩⟩⟩
      else (register Registry.empty (samplePublisher id) ⟨sampleID 1, ⟨"source"⟩⟩).mp k
    idMp := (register Registry.empty (samplePublisher id) ⟨sampleID 1, ⟨"source"⟩⟩).idMp }

/-- A layout for examples: the nanosecond count in decimal. -/
def sampleLayout (t : Time) : String := Sprintd t.nsec

/-! # Theorems -/

/-! ## Keys -/

theorem digitChar_inj : ∀ a b : Fin 16, Nat.digitChar a.val = Nat.digitChar b.val → a = b := by
  decide

theorem hexByte_inj (a b : Fin 256) (h : hexByte a = hexByte b) : a = b := by
  simp only [hexByte, List.cons.injEq, and_true] at h
  have h1 := digitChar_inj ⟨a.val / 16, by omega⟩ ⟨b.val / 16, by omega⟩ h.1
  have h2 := digitChar_inj ⟨a.val % 16, by omega⟩ ⟨b.val % 16, by omega⟩ h.2
  simp only [Fin.mk.injEq] at h1 h2
  apply Fin.ext
  omega

theorem hexEncode_length (bs : List (Fin 256)) : (hexEncode bs).length = 2 * bs.length := by
  induction bs with
  | nil => rfl
  | cons b bs ih => simp [hexEncode, hexByte, ih]; omega

theorem hexEncode_inj : ∀ (xs ys : List (Fin 256)), hexEncode xs = hexEncode ys → xs = ys
  | [], [], _ => rfl
  | [], y :: ys, h => by simp [hexEncode, hexByte] at h
  | x :: xs, [], h => by simp [hexEncode, hexByte] at h
  | x :: xs, y :: ys, h => by
    simp only [hexEncode] at h
    have hl : (hexByte x).length = (hexByte y).length := by simp [hexByte]
    obtain ⟨h1, h2⟩ := List.append_inj h hl
    rw [hexByte_inj x y h1, hexEncode_inj xs ys h2]

theorem Hex_length (id : ObjectID) : id.Hex.data.length = 24 := by
  simp [ObjectID.Hex, hexEncode_length, id.size]

theorem Hex_inj (a b : ObjectID) (h : a.Hex = b.Hex) : a = b := by
  have h1 : hexEncode a.bytes = hexEncode b.bytes := by
    have := congrArg String.data h
    simpa [ObjectID.Hex] using this
  have h2 := hexEncode_inj _ _ h1
  cases a; cases b; simp_all

/-- A prefix, an object id in hexadecimal, a separator and a free tail determine the id and the tail. -/
theorem hex_tail_inj (pre sep : String) (s1 s2 : ObjectID) (t1 t2 : String)
    (h : pre ++ s1.Hex ++ sep ++ t1 = pre ++ s2.Hex ++ sep ++ t2) : s1 = s2 ∧ t1 = t2 := by
  have hd := congrArg String.data h
  simp only [String.data_append, List.append_assoc] at hd
  have h1 := List.append_cancel_left hd
  obtain ⟨h2, h3⟩ := List.append_inj h1 (by rw [Hex_length, Hex_length])
  have h4 := List.append_cancel_left h3
  exact ⟨Hex_inj _ _ (String.ext h2), String.ext h4⟩

theorem idKey_inj (s1 s2 : ObjectID) (v1 v2 : String) (h : idKey s1 v1 = idKey s2 v2) :
    s1 = s2 ∧ v1 = v2 := by
  have := hex_tail_inj "" "-" s1 s2 v1 v2 (by simpa [idKey] using h)
  exact this

/-! ## Session registry -/

theorem Lookup_register_same (st : Registry) (info : Info) (pl : JwtMuxerPayload)
    (hid : info.ID ≠ "") :
    Lookup (register st info pl) pl.StreamID pl.Variant.Name = some info.ID := by
  simp [Lookup, register, hid]

theorem Lookup_register_other (st : Registry) (info : Info) (pl : JwtMuxerPayload)
    (s : ObjectID) (v : String) (h : ¬ (pl.StreamID = s ∧ pl.Variant.Name = v)) :
    Lookup (register st info pl) s v = Lookup st s v := by
  have hk : idKey s v ≠ idKey pl.StreamID pl.Variant.Name := by
    intro hk
    have := idKey_inj _ _ _ _ hk
    exact h ⟨this.1.symm, this.2.symm⟩
  simp [Lookup, register, hk]

theorem AuthStream_cases (dec : String → Option JwtMuxerPayload) (st : Registry) (info : Info) :
    (AuthStream dec st info = (false, st)) ∨
    (∃ pl, info.Publisher = true ∧ info.App = "transmux" ∧ dec info.Name = some pl ∧
      AuthStream dec st info = (true, register st info pl)) := by
  unfold AuthStream
  by_cases hp : info.Publisher = true
  · by_cases ha : info.App = "transmux"
    · cases hd : dec info.Name with
      | none => left; simp [hp, ha]
      | some pl => right; exact ⟨pl, hp, ha, rfl, by simp [hp, ha]⟩
    · left; simp [hp, ha]
  · left; simp [hp]

theorem AuthStream_registers (dec : String → Option JwtMuxerPayload) (st : Registry) (info : Info)
    (pl : JwtMuxerPayload) (hpub : info.Publisher = true) (happ : info.App = "transmux")
    (hdec : dec info.Name = some pl) : AuthStream dec st info = (true, register st info pl) := by
  simp [AuthStream, hpub, happ, hdec]

theorem register_mp_isSome (st : Registry) (info : Info) (pl : JwtMuxerPayload) (id : String)
    (h : ((Get st id).isSome = true)) : (Get (register st info pl) id).isSome = true := by
  simp only [Get, register] at *
  split <;> simp_all

theorem register_mp_own (st : Registry) (info : Info) (pl : JwtMuxerPayload) (id : String)
    (h : ∃ s, Get st id = some s ∧ s.info.ID = id) :
    ∃ s, Get (register st info pl) id = some s ∧ s.info.ID = id := by
  simp only [Get, register] at *
  by_cases hk : id = info.ID
  · exact ⟨⟨info, none, pl⟩, by simp [hk], hk.symm⟩
  · simpa [hk] using h

theorem AuthStream_mp_isSome (dec : String → Option JwtMuxerPayload) (st : Registry) (info : Info)
    (id : String) (h : (Get st id).isSome = true) :
    (Get (AuthStream dec st info).2 id).isSome = true := by
  rcases AuthStream_cases dec st info with h1 | ⟨pl, _, _, _, h1⟩
  · rw [h1]; exact h
  · rw [h1]; exact register_mp_isSome st info pl id h

theorem HandlePublisher_mp_isSome (st st1 : Registry) (info : Info) (cache : Cache) (id : String)
    (hs : HandlePublisher st info cache = some st1) (h : (Get st id).isSome = true) :
    (Get st1 id).isSome = true := by
  unfold HandlePublisher at hs
  cases hm : st.mp info.ID with
  | none => simp [hm] at hs
  | some stream =>
    simp only [hm, Option.some.injEq] at hs
    subst hs
    simp only [Get] at *
    split <;> simp_all

theorem step_mp_isSome (dec : String → Option JwtMuxerPayload) (st st1 : Registry) (e : Event)
    (id : String) (hs : step dec st e = some st1) (h : (Get st id).isSome = true) :
    (Get st1 id).isSome = true := by
  cases e with
  | auth info =>
    simp only [step, Option.some.injEq] at hs
    subst hs
    exact AuthStream_mp_isSome dec st info id h
  | publish info cache => exact HandlePublisher_mp_isSome st st1 info cache id hs h
  | publisherReturns info => simp only [step, Option.some.injEq] at hs; subst hs; exact h
  | contextCancelled => simp only [step, Option.some.injEq] at hs; subst hs; exact h

theorem run_mp_isSome (dec : String → Option JwtMuxerPayload) (es : List Event) :
    ∀ (st st1 : Registry) (id : String), run dec st es = some st1 →
      (Get st id).isSome = true → (Get st1 id).isSome = true := by
  induction es with
  | nil =>
    intro st st1 id hs h
    simp only [run, Option.some.injEq] at hs
    subst hs; exact h
  | cons e es ih =>
    intro st st1 id hs h
    simp only [run] at hs
    cases he : step dec st e with
    | none => simp [he] at hs
    | some st2 =>
      simp only [he] at hs
      exact ih st2 st1 id hs (step_mp_isSome dec st st2 e id he h)

theorem authAll_keeps (dec : String → Option JwtMuxerPayload) (s : ObjectID) (v c : String)
    (later : List Info) :
    ∀ (st : Registry),
      (∀ i ∈ later, i.Publisher = true → i.App = "transmux" → ∀ p, dec i.Name = some p →
        ¬ (p.StreamID = s ∧ p.Variant.Name = v)) →
      Lookup st s v = some c → (∃ x, Get st c = some x ∧ x.info.ID = c) →
      Lookup (authAll dec st later) s v = some c ∧
        ∃ x, Get (authAll dec st later) c = some x ∧ x.info.ID = c := by
  induction later with
  | nil => intro st _ h1 h2; exact ⟨h1, h2⟩
  | cons i is ih =>
    intro st hl h1 h2
    have hrest : ∀ j ∈ is, j.Publisher = true → j.App = "transmux" → ∀ p, dec j.Name = some p →
        ¬ (p.StreamID = s ∧ p.Variant.Name = v) :=
      fun j hj => hl j (List.mem_cons_of_mem _ hj)
    show Lookup (authAll dec (AuthStream dec st i).2 is) s v = some c ∧
        ∃ x, Get (authAll dec (AuthStream dec st i).2 is) c = some x ∧ x.info.ID = c
    rcases AuthStream_cases dec st i with h | ⟨p, hpub, happ, hp, h⟩
    · rw [h]; exact ih st hrest h1 h2
    · rw [h]
      apply ih _ hrest
      · rw [Lookup_register_other st i p s v (hl i (List.mem_cons_self _ _) hpub happ p hp)]
        exact h1
      · exact register_mp_own st i p c h2

/-- **C1**, as amended: when `AuthStream` registers a connection with a non-empty identity
`c` under `(s, v)`, the handler's lookup of `(s, v)` gives `c` and `c` resolves to a session
stored under `c`; this stays so after any later `AuthStream` calls that register under another
pair, and a later registration of a non-empty `c2` under the same pair makes the lookup
give `c2`. -/
theorem registry_round_trip (dec : String → Option JwtMuxerPayload) (st : Registry) (info : Info)
    (pl : JwtMuxerPayload) (later : List Info)
    (hpub : info.Publisher = true) (happ : info.App = "transmux") (hdec : dec info.Name = some pl)
    (hid : info.ID ≠ "")
    (hlater : ∀ i ∈ later, i.Publisher = true → i.App = "transmux" → ∀ p, dec i.Name = some p →
      ¬ (p.StreamID = pl.StreamID ∧ p.Variant.Name = pl.Variant.Name)) :
    (AuthStream dec st info).1 = true ∧
    Lookup (authAll dec (AuthStream dec st info).2 later) pl.StreamID pl.Variant.Name
      = some info.ID ∧
    (∃ x, Get (authAll dec (AuthStream dec st info).2 later) info.ID = some x ∧
      x.info.ID = info.ID) ∧
    (∀ (info2 : Info) (pl2 : JwtMuxerPayload), info2.Publisher = true → info2.App = "transmux" →
      dec info2.Name = some pl2 → pl2.StreamID = pl.StreamID →
      pl2.Variant.Name = pl.Variant.Name → info2.ID ≠ "" →
      Lookup (AuthStream dec (authAll dec (AuthStream dec st info).2 later) info2).2
        pl.StreamID pl.Variant.Name = some info2.ID) := by
  rw [AuthStream_registers dec st info pl hpub happ hdec]
  have hk := authAll_keeps dec pl.StreamID pl.Variant.Name info.ID later (register st info pl)
    hlater (Lookup_register_same st info pl hid)
    ⟨⟨info, none, pl⟩, by simp [Get, register], rfl⟩
  refine ⟨rfl, hk.1, hk.2, ?_⟩
  intro info2 pl2 hp2 ha2 hd2 hs hv hid2
  rw [AuthStream_registers dec _ info2 pl2 hp2 ha2 hd2, ← hs, ← hv]
  exact Lookup_register_same _ info2 pl2 hid2

/-- Witness of `registry_round_trip`: connection `conn-a` publishes `source`, then `conn-b`
publishes `720p` of the same stream. -/
theorem registry_round_trip_witness :
    Lookup (authAll sampleDecode (AuthStream sampleDecode Registry.empty (samplePublisher "conn-a")).2
      [⟨"conn-b", true, "transmux", "token-720p"⟩]) (sampleID 1) "source" = some "conn-a" :=
  (registry_round_trip sampleDecode Registry.empty (samplePublisher "conn-a")
    ⟨sampleID 1, ⟨"source"⟩⟩ [⟨"conn-b", true, "transmux", "token-720p"⟩] rfl rfl rfl (by decide)
    (by
      intro i hi _ _ p hp
      simp only [List.mem_singleton] at hi
      subst hi
      have : p = ⟨sampleID 1, ⟨"720p"⟩⟩ := by
        simp [sampleDecode] at hp
        exact hp.symm
      subst this
      decide)).2.1

/-- **C1**, counterexample: a connection whose identity is the empty string is accepted and
registered, yet the lookup of its pair finds nothing (line 208 reads `""` as "missing"). -/
theorem registry_round_trip_empty_identity :
    (AuthStream sampleDecode Registry.empty (samplePublisher "")).1 = true ∧
    Lookup (AuthStream sampleDecode Registry.empty (samplePublisher "")).2 (sampleID 1) "source"
      = none := by
  decide

/-- **C2**, as amended: the registry has no removal. Once `AuthStream` has registered a
connection, every run of later events (further registrations, publishing, the publisher handler
returning, the context being cancelled) still holds a session under that connection id, and a
segment request that resolves to it is answered from that session's cache. -/
theorem session_never_removed (dec : String → Option JwtMuxerPayload) (st st1 : Registry)
    (info : Info) (pl : JwtMuxerPayload) (es : List Event)
    (hpub : info.Publisher = true) (happ : info.App = "transmux") (hdec : dec info.Name = some pl)
    (hrun : run dec (AuthStream dec st info).2 es = some st1) :
    (Get st1 info.ID).isSome = true ∧
    ∀ (AddWriter : Item → Bool) (s : ObjectID) (v name : String),
      Lookup st1 s v = some info.ID →
      ∃ stream, Get st1 info.ID = some stream ∧
        serveSegment AddWriter st1 s v name =
          match stream.Cache with
          | none => Response.panic
          | some cache =>
            match cache.GetItem (TrimSuffix name ".ts") with
            | none => Response.status 404 ""
            | some item => if AddWriter item then Response.segment item else Response.status 500 "" := by
  have h0 : (Get (AuthStream dec st info).2 info.ID).isSome = true := by
    rw [AuthStream_registers dec st info pl hpub happ hdec]
    simp [Get, register]
  have h1 := run_mp_isSome dec es _ st1 info.ID hrun h0
  refine ⟨h1, ?_⟩
  intro AddWriter s v name hl
  obtain ⟨stream, hs⟩ := Option.isSome_iff_exists.mp h1
  refine ⟨stream, hs, ?_⟩
  simp only [serveSegment, hl, hs]

/-- Witness of `session_never_removed`: publish, let the handler return, cancel. -/
theorem session_never_removed_witness :
    (Get (sampleAttached "conn-a") "conn-a").isSome = true :=
  (session_never_removed sampleDecode Registry.empty (sampleAttached "conn-a")
    (samplePublisher "conn-a") ⟨sampleID 1, ⟨"source"⟩⟩
    [.publish (samplePublisher "conn-a") sampleCache,
     .publisherReturns (samplePublisher "conn-a"), .contextCancelled] rfl rfl rfl rfl).1

/-- **C2**, counterexample: after registration, publishing, the return of the publisher handler
and the cancellation of the context, `Get` still finds the session and a request for one of its
segments is served (status 200), not answered with 404. -/
theorem session_still_held_after_termination :
    (run sampleDecode Registry.empty
        [.auth (samplePublisher "conn-a"), .publish (samplePublisher "conn-a") sampleCache,
         .publisherReturns (samplePublisher "conn-a"), .contextCancelled]).map
      (fun st => ((Get st "conn-a").isSome,
        Handler missingStore (fun _ => true) st "/010101010101010101010101/source/seg0.ts"))
      = some (true, Response.segment sampleItem) := by
  decide

/-! ## Segment server -/

theorem HasSuffix_iff (s suffix : String) : HasSuffix s suffix = true ↔ suffix.data <:+ s.data := by
  simp [HasSuffix]

theorem m3u8_not_ts (file : String) (h : HasSuffix file ".m3u8" = true) :
    HasSuffix file ".ts" = false := by
  cases hts : HasSuffix file ".ts" with
  | false => rfl
  | true =>
    exfalso
    rw [HasSuffix_iff] at h hts
    rcases List.suffix_or_suffix_of_suffix h hts with h1 | h1
    · have := h1.length_le
      simp at this
    · have h2 : (".ts" : String).data <:+ (".m3u8" : String).data := h1
      revert h2
      decide

theorem HasSuffix_append (v suffix : String) : HasSuffix (v ++ suffix) suffix = true := by
  rw [HasSuffix_iff, String.data_append]
  exact List.suffix_append _ _

theorem Handler_playlist (RedisGet : String → Except String RedisVal) (AddWriter : Item → Bool)
    (st : Registry) (path a hex variant file : String) (streamID : ObjectID)
    (hsplit : SplitN path 4 = [a, hex, variant, file])
    (hid : ObjectIDFromHex hex = some streamID)
    (hfile : HasSuffix file ".m3u8" = true) :
    Handler RedisGet AddWriter st path = servePlaylist RedisGet streamID variant := by
  simp [Handler, hsplit, hid, hfile, m3u8_not_ts file hfile]

/-- **C3**, the code at the failing inputs: a path with a valid stream id and fewer than three
parts makes the handler index `splits` past its end (`splits[2]`, then `splits[3]`), which is
a panic and not the 404 of the claim, whatever the store, the cache and the registry are. -/
theorem Handler_short_path_panics (RedisGet : String → Except String RedisVal)
    (AddWriter : Item → Bool) (st : Registry) :
    Handler RedisGet AddWriter st "/010101010101010101010101" = Response.panic ∧
    Handler RedisGet AddWriter st "/010101010101010101010101/source" = Response.panic := by
  constructor <;> rfl

/-- **C4**, as amended: for a request `/streamID/variant/file` with a valid stream id and a
file name ending in `.m3u8`, the answer follows the reply of the store's `Get` for the playlist
key: an error reply (which is how a client reports a missing key) gives status 500, a string
reply gives status 200 with that string as the body, and no reply gives status 404. -/
theorem playlist_request_follows_store (RedisGet : String → Except String RedisVal)
    (AddWriter : Item → Bool) (st : Registry) (path a hex variant file : String)
    (streamID : ObjectID)
    (hsplit : SplitN path 4 = [a, hex, variant, file])
    (hid : ObjectIDFromHex hex = some streamID)
    (hfile : HasSuffix file ".m3u8" = true) :
    (∀ e, RedisGet (playlistKey streamID variant) = .error e →
      Handler RedisGet AddWriter st path = Response.status 500 "") ∧
    (∀ val, RedisGet (playlistKey streamID variant) = .ok (.str val) →
      Handler RedisGet AddWriter st path = Response.status 200 val) ∧
    (∀ body, Handler RedisGet AddWriter st path ≠ Response.status 404 body) := by
  rw [Handler_playlist RedisGet AddWriter st path a hex variant file streamID hsplit hid hfile]
  refine ⟨?_, ?_, ?_⟩
  · intro e he; simp [servePlaylist, he]
  · intro val hv; simp [servePlaylist, hv]
  · intro body
    unfold servePlaylist
    split <;> simp

/-- Witness of `playlist_request_follows_store`: a store that reports the key as missing. -/
theorem playlist_request_follows_store_witness :
    Handler missingStore (fun _ => true) Registry.empty
      "/010101010101010101010101/source/index.m3u8" = Response.status 500 "" :=
  (playlist_request_follows_store missingStore (fun _ => true) Registry.empty
    "/010101010101010101010101/source/index.m3u8" "" "010101010101010101010101" "source"
    "index.m3u8" (sampleID 1) (by decide) (by decide) (by decide)).1 "redis: nil" rfl

/-- **C4**, counterexample: with a store whose client reports the missing playlist by an error,
the `.m3u8` request is answered with status 500. -/
theorem missing_playlist_answers_500 :
    missingStore (playlistKey (sampleID 1) "source") = .error "redis: nil" ∧
    Handler missingStore (fun _ => true) Registry.empty
      "/010101010101010101010101/source/index.m3u8" = Response.status 500 "" := by
  constructor
  · rfl
  · decide

/-! ## Coordination-store keys -/

theorem playlistKey_inj (s1 s2 : ObjectID) (v1 v2 : String)
    (h : playlistKey s1 v1 = playlistKey s2 v2) : s1 = s2 ∧ v1 = v2 :=
  hex_tail_inj "live-playlists:" ":" s1 s2 v1 v2 h

theorem ipKey_eq (s : ObjectID) (v : String) : ipKey s v = playlistKey s (v ++ ":ip") := by
  apply String.ext
  simp [ipKey, playlistKey, String.data_append]

theorem append_right_cancel (a b c : String) (h : a ++ c = b ++ c) : a = b := by
  have := congrArg String.data h
  simp only [String.data_append] at this
  exact String.ext (List.append_cancel_right this)

/-- **C10**, as amended: for two sessions with distinct `(streamID, variant)` pairs the two
playlist keys differ and the two address keys differ; the playlist key of one is the address
key of the other exactly when both have the same stream id and the first variant name is the
second one followed by `:ip`; so when neither variant name ends in `:ip`, all four keys are
different. -/
theorem store_keys_distinct (s1 s2 : ObjectID) (v1 v2 : String)
    (hne : ¬ (s1 = s2 ∧ v1 = v2)) :
    playlistKey s1 v1 ≠ playlistKey s2 v2 ∧
    ipKey s1 v1 ≠ ipKey s2 v2 ∧
    (playlistKey s1 v1 = ipKey s2 v2 ↔ s1 = s2 ∧ v1 = v2 ++ ":ip") ∧
    (HasSuffix v1 ":ip" = false → HasSuffix v2 ":ip" = false →
      playlistKey s1 v1 ≠ ipKey s2 v2 ∧ ipKey s1 v1 ≠ playlistKey s2 v2) := by
  have hiff : ∀ (a b : ObjectID) (x y : String),
      playlistKey a x = ipKey b y ↔ a = b ∧ x = y ++ ":ip" := by
    intro a b x y
    rw [ipKey_eq]
    constructor
    · exact playlistKey_inj a b x (y ++ ":ip")
    · rintro ⟨rfl, rfl⟩; rfl
  refine ⟨fun h => hne (playlistKey_inj _ _ _ _ h), ?_, hiff s1 s2 v1 v2, ?_⟩
  · intro h
    rw [ipKey_eq, ipKey_eq] at h
    obtain ⟨h1, h2⟩ := playlistKey_inj _ _ _ _ h
    exact hne ⟨h1, append_right_cancel _ _ _ h2⟩
  · intro h1 h2
    constructor
    · intro h
      obtain ⟨_, hv⟩ := (hiff s1 s2 v1 v2).mp h
      rw [hv, HasSuffix_append] at h1
      exact Bool.noConfusion h1
    · intro h
      obtain ⟨_, hv⟩ := (hiff s2 s1 v2 v1).mp h.symm
      rw [hv, HasSuffix_append] at h2
      exact Bool.noConfusion h2

/-- Witness of `store_keys_distinct`: the renditions `source` and `720p` of one stream. -/
theorem store_keys_distinct_witness :
    playlistKey (sampleID 1) "source" ≠ playlistKey (sampleID 1) "720p" :=
  (store_keys_distinct (sampleID 1) (sampleID 1) "source" "720p" (by decide)).1

/-- **C10**, counterexample: the renditions `source` and `source:ip` of one stream are distinct
pairs, and the address key of the first is the playlist key of the second. -/
theorem store_keys_collide :
    ¬ (sampleID 1 = sampleID 1 ∧ "source" = "source:ip") ∧
    ipKey (sampleID 1) "source" = playlistKey (sampleID 1) "source:ip" := by
  decide

/-! ## `float64` -/

theorem rhe_intCast (z : ℤ) : roundHalfEven (z : ℚ) = z := by
  simp [roundHalfEven]

theorem rhe_err (q : ℚ) : |(roundHalfEven q : ℚ) - q| ≤ 1 / 2 := by
  have h1 := Int.floor_le q
  have h2 := Int.lt_floor_add_one q
  unfold roundHalfEven
  rw [abs_le]
  split_ifs <;> push_cast <;> constructor <;> linarith

theorem rhe_near (z : ℤ) (q : ℚ) (h : |q - z| < 1 / 2) : roundHalfEven q = z := by
  rw [abs_lt] at h
  obtain ⟨h1, h2⟩ := h
  rcases le_or_lt (z : ℚ) q with hz | hz
  · have hf : ⌊q⌋ = z := by
      rw [Int.floor_eq_iff]; constructor <;> linarith
    unfold roundHalfEven
    rw [hf, if_pos (by linarith)]
  · have hf : ⌊q⌋ = z - 1 := by
      rw [Int.floor_eq_iff]; push_cast; constructor <;> linarith
    unfold roundHalfEven
    rw [hf]
    push_cast
    rw [if_neg (by linarith), if_pos (by linarith)]
    ring

theorem f64mag_zero : f64mag 0 = 0 := by simp [f64mag]

theorem f64mag_err (q : ℚ) (hq : 0 < q) : |f64mag q - q| ≤ q / 2 ^ 53 := by
  have hL : (2 : ℚ) ^ Int.log 2 q ≤ q := by
    have := Int.zpow_log_le_self (R := ℚ) (b := 2) (by norm_num) hq
    simpa using this
  have he : (2 : ℚ) ^ (Int.log 2 q - 52) = 2 ^ Int.log 2 q / 2 ^ 52 := by
    rw [zpow_sub₀ (by norm_num : (2 : ℚ) ≠ 0)]
    norm_num
  have hpos : (0 : ℚ) < 2 ^ (Int.log 2 q - 52) := by positivity
  have hr := rhe_err (q / 2 ^ (Int.log 2 q - 52))
  have hd : f64mag q - q =
      ((roundHalfEven (q / 2 ^ (Int.log 2 q - 52)) : ℚ) - q / 2 ^ (Int.log 2 q - 52))
        * 2 ^ (Int.log 2 q - 52) := by
    rw [f64mag, if_neg hq.ne']
    field_simp
  rw [hd, abs_mul, abs_of_pos hpos]
  calc |(roundHalfEven (q / 2 ^ (Int.log 2 q - 52)) : ℚ) - q / 2 ^ (Int.log 2 q - 52)|
        * 2 ^ (Int.log 2 q - 52)
      ≤ 1 / 2 * 2 ^ (Int.log 2 q - 52) := by
        exact mul_le_mul_of_nonneg_right hr hpos.le
    _ = 2 ^ Int.log 2 q / 2 ^ 53 := by rw [he]; ring
    _ ≤ q / 2 ^ 53 := by
        apply div_le_div_of_nonneg_right hL (by positivity)

theorem f64mag_dyadic (n k : ℕ) (hn : n < 2 ^ 53) : f64mag ((n : ℚ) / 2 ^ k) = (n : ℚ) / 2 ^ k := by
  rcases Nat.eq_zero_or_pos n with h0 | hpos
  · subst h0; simp [f64mag]
  have hq : (0 : ℚ) < (n : ℚ) / 2 ^ k := by positivity
  set q : ℚ := (n : ℚ) / 2 ^ k with hqdef
  have hlt : q < (2 : ℚ) ^ ((53 : ℤ) - k) := by
    rw [zpow_sub₀ (by norm_num : (2 : ℚ) ≠ 0), hqdef]
    have : (n : ℚ) < 2 ^ (53 : ℤ) := by
      have h53 : (n : ℚ) < (2 : ℚ) ^ (53 : ℕ) := by exact_mod_cast hn
      rw [← zpow_natCast] at h53
      exact h53
    simp only [zpow_natCast]
    exact div_lt_div_of_pos_right this (by positivity)
  have hlog : Int.log 2 q < 53 - k := by
    have := (Int.lt_zpow_iff_log_lt (R := ℚ) (b := 2) (by norm_num) hq (x := 53 - (k : ℤ))).mp
      (by simpa using hlt)
    exact this
  obtain ⟨t, ht⟩ : ∃ t : ℕ, Int.log 2 q - 52 = -((k : ℤ) + t) := by
    refine ⟨(52 - (k : ℤ) - Int.log 2 q).toNat, ?_⟩
    rw [Int.toNat_of_nonneg (by omega)]
    ring
  have hs : q / 2 ^ (Int.log 2 q - 52) = ((n * 2 ^ t : ℤ) : ℚ) := by
    rw [ht, zpow_neg, zpow_add₀ (by norm_num : (2 : ℚ) ≠ 0), hqdef]
    push_cast
    simp only [zpow_natCast]
    field_simp
    ring
  rw [f64mag, if_neg hq.ne', hs, rhe_intCast, ← hs]
  have hpos2 : (0 : ℚ) < 2 ^ (Int.log 2 q - 52) := by positivity
  field_simp


theorem f64_neg (q : ℚ) : f64 (-q) = -f64 q := by
  unfold f64
  rcases lt_trichotomy q 0 with h | h | h
  · rw [if_neg (by linarith), if_pos h]; simp
  · subst h; simp [f64mag_zero]
  · rw [if_pos (by linarith), if_neg (by linarith)]; simp

theorem f64_of_nonneg (q : ℚ) (h : 0 ≤ q) : f64 q = f64mag q := by
  rw [f64, if_neg (by linarith)]

theorem mathRound_neg (x : ℚ) : mathRound (-x) = -mathRound x := by
  unfold mathRound
  rcases lt_trichotomy x 0 with h | h | h
  · rw [if_neg (by linarith), if_pos h]; simp
  · subst h; norm_num
  · rw [if_pos (by linarith), if_neg (by linarith)]; simp

theorem f64mag_nat (m : ℕ) (hm : m < 2 ^ 53) : f64mag (m : ℚ) = m := by
  have := f64mag_dyadic m 0 hm
  simpa using this

theorem f64mag_nonneg (q : ℚ) (hq : 0 ≤ q) : 0 ≤ f64mag q := by
  rcases hq.eq_or_lt with h | h
  · rw [← h, f64mag_zero]
  · have := abs_le.mp (f64mag_err q h)
    have h2 : q / 2 ^ 53 ≤ q := div_le_self hq (by norm_num)
    linarith [this.1]

theorem round_div10 (m : ℕ) (hm : m < 2 ^ 44) :
    mathRound (f64mag ((m : ℚ) / 10)) = (((m + 5) / 10 : ℕ) : ℚ) := by
  have hb0 := f64mag_nonneg ((m : ℚ) / 10) (by positivity)
  rw [mathRound, if_neg (by linarith)]
  suffices hfl : ⌊f64mag ((m : ℚ) / 10) + 1 / 2⌋ = (((m + 5) / 10 : ℕ) : ℤ) by
    rw [hfl]; norm_cast
  rw [Int.floor_eq_iff]
  obtain ⟨n, j, hj, hmn⟩ : ∃ n j : ℕ, j < 10 ∧ m = 10 * n + j :=
    ⟨m / 10, m % 10, Nat.mod_lt _ (by norm_num), by omega⟩
  have hc : (m + 5) / 10 = if j < 5 then n else n + 1 := by
    split_ifs <;> omega
  have hmq : (m : ℚ) / 10 = n + j / 10 := by
    rw [hmn]; push_cast; ring
  have hn : n < 2 ^ 41 := by omega
  by_cases h0 : j = 0
  · have : f64mag ((m : ℚ) / 10) = n := by
      rw [hmq, h0]; simpa using f64mag_nat n (by omega)
    rw [this, hc, h0]; push_cast; constructor <;> linarith
  by_cases h5 : j = 5
  · have : f64mag ((m : ℚ) / 10) = n + 1 / 2 := by
      have h := f64mag_dyadic (2 * n + 1) 1 (by omega)
      have e : ((2 * n + 1 : ℕ) : ℚ) / 2 ^ 1 = (m : ℚ) / 10 := by
        rw [hmq, h5]; push_cast; ring
      rw [e] at h
      rw [h, hmq, h5]; norm_num
    rw [this, hc, h5]; push_cast; constructor <;> linarith
  have hqpos : (0 : ℚ) < (m : ℚ) / 10 := by
    have : 0 < m := by omega
    positivity
  have herr := abs_le.mp (f64mag_err _ hqpos)
  have hmlt : (m : ℚ) < 2 ^ 44 := by exact_mod_cast hm
  have hsmall : (m : ℚ) / 10 / 2 ^ 53 ≤ 1 / 20 := by
    rw [div_le_iff₀ (by positivity)]
    linarith
  rw [hmq] at herr hsmall
  have hjq : (j : ℚ) < 10 := by exact_mod_cast hj
  rw [hmq, hc]
  interval_cases j <;> simp at * <;> constructor <;> linarith

theorem hundredth (c : ℕ) (hc0 : 0 < c) (hc : c < 2 ^ 41) :
    0 < f64mag ((c : ℚ) / 100) ∧ roundHalfEven (|f64mag ((c : ℚ) / 100)| * 100) = c := by
  have hq : (0 : ℚ) < (c : ℚ) / 100 := by positivity
  have hcq : (c : ℚ) < 2 ^ 41 := by exact_mod_cast hc
  have hc1 : (1 : ℚ) ≤ c := by exact_mod_cast hc0
  have herr := abs_le.mp (f64mag_err _ hq)
  have hsmall : (c : ℚ) / 100 / 2 ^ 53 ≤ 1 / 40000 := by
    rw [div_le_iff₀ (by positivity)]
    linarith
  have h100 : (c : ℚ) / 100 / 2 ^ 53 ≤ (c : ℚ) / 100 / 2 := by
    apply div_le_div_of_nonneg_left hq.le (by norm_num) (by norm_num)
  have hy : 0 < f64mag ((c : ℚ) / 100) := by linarith [herr.1]
  refine ⟨hy, ?_⟩
  rw [abs_of_pos hy]
  have := rhe_near (c : ℤ) (f64mag ((c : ℚ) / 100) * 100) (by
    rw [abs_lt]; push_cast; constructor <;> linarith [herr.1, herr.2])
  exact this

theorem chain_nat (m : ℕ) (hm : m < 2 ^ 44) :
    f64 (mathRound (f64 (f64 (m : ℚ) / 10)) / 100) = f64mag ((((m + 5) / 10 : ℕ) : ℚ) / 100) := by
  rw [f64_of_nonneg (m : ℚ) (by positivity), f64mag_nat m (by omega),
    f64_of_nonneg ((m : ℚ) / 10) (by positivity), round_div10 m hm,
    f64_of_nonneg _ (by positivity)]

theorem chain_neg (x : ℚ) :
    f64 (mathRound (f64 (f64 (-x) / 10)) / 100) = -f64 (mathRound (f64 (f64 x / 10)) / 100) := by
  rw [f64_neg, neg_div, f64_neg, mathRound_neg, neg_div, f64_neg]

theorem Sprintf2f_two : Sprintf2f 2 = centiText false 200 := by
  have h : |(2 : ℚ)| * 100 = ((200 : ℤ) : ℚ) := by norm_num
  have hd : decide ((2 : ℚ) < 0) = false := decide_eq_false (by norm_num)
  rw [Sprintf2f, h, rhe_intCast, hd]
  rfl

theorem Sprintf2f_hundredths (c : ℕ) (hc0 : 0 < c) (hc : c < 2 ^ 41) :
    f64mag ((c : ℚ) / 100) ≠ 0 ∧
    Sprintf2f (f64mag ((c : ℚ) / 100)) = centiText false c ∧
    Sprintf2f (-f64mag ((c : ℚ) / 100)) = centiText true c := by
  obtain ⟨hy, hr⟩ := hundredth c hc0 hc
  have e1 : decide (f64mag ((c : ℚ) / 100) < 0) = false := decide_eq_false (by linarith)
  have e2 : decide (-f64mag ((c : ℚ) / 100) < 0) = true := decide_eq_true (by linarith)
  refine ⟨hy.ne', ?_, ?_⟩
  · rw [Sprintf2f, hr, e1, Int.toNat_ofNat]
  · rw [Sprintf2f, abs_neg, hr, e2, Int.toNat_ofNat]

theorem tdiv_ms_nonneg (a : ℕ) : ((a : ℤ)).tdiv Millisecond = ((a / 1000000 : ℕ) : ℤ) := by
  rw [Millisecond, Int.tdiv_eq_ediv (by omega) (by norm_num)]
  norm_cast

theorem centis_cases (d : Int) (a : ℕ) (ha : d = a ∨ d = -(a : ℤ)) :
    (d = a ∧ centis d = (((a / 1000000 + 5) / 10 : ℕ) : ℤ)) ∨
    (d = -(a : ℤ) ∧ centis d = -(((a / 1000000 + 5) / 10 : ℕ) : ℤ)) := by
  unfold centis
  rcases ha with h | h
  · left; refine ⟨h, ?_⟩; split_ifs <;> omega
  · right; refine ⟨h, ?_⟩; split_ifs <;> omega

/-- The text of `%.2f` applied to `dur d`, in whole hundredths. -/
theorem Sprintf2f_dur (d : Int) (h1 : -2 ^ 63 ≤ d) (h2 : d < 2 ^ 63) :
    Sprintf2f (dur d) = centiText (decide (shown d < 0)) (shown d).natAbs := by
  obtain ⟨a, ha⟩ : ∃ a : ℕ, d = a ∨ d = -(a : ℤ) := ⟨d.natAbs, Int.natAbs_eq d⟩
  have ha63 : a ≤ 2 ^ 63 := by rcases ha with h | h <;> omega
  have hm : a / 1000000 < 2 ^ 44 := by omega
  have hc41 : (a / 1000000 + 5) / 10 < 2 ^ 41 := by omega
  have hchain := chain_nat (a / 1000000) hm
  have hcases := centis_cases d a ha
  have hca : 0 < (a / 1000000 + 5) / 10 → 0 < a := by omega
  generalize (a / 1000000 + 5) / 10 = c at hc41 hchain hcases hca
  have hX : f64 (mathRound (f64 (f64 (((d.tdiv Millisecond : ℤ)) : ℚ) / 10)) / 100)
      = if d = a then f64mag ((c : ℚ) / 100) else -f64mag ((c : ℚ) / 100) := by
    rcases hcases with ⟨h, _⟩ | ⟨h, _⟩
    · rw [if_pos h, h, tdiv_ms_nonneg, Int.cast_natCast, hchain]
    · by_cases hd : d = a
      · have : a = 0 := by omega
        subst this
        have hd0 : d = 0 := by simpa using hd
        rw [if_pos hd, hd0]
        have := tdiv_ms_nonneg 0
        simp only [Nat.cast_zero] at this
        rw [this, ← hchain]
        simp
      · rw [if_neg hd, h, Int.neg_tdiv, tdiv_ms_nonneg, Int.cast_neg, Int.cast_natCast,
          chain_neg, hchain]
  rcases Nat.eq_zero_or_pos c with hc | hc
  · have hs : shown d = 200 := by
      have : centis d = 0 := by rcases hcases with ⟨_, h⟩ | ⟨_, h⟩ <;> rw [h, hc] <;> simp
      simp [shown, this]
    have hX0 : f64 (mathRound (f64 (f64 (((d.tdiv Millisecond : ℤ)) : ℚ) / 10)) / 100) = 0 := by
      rw [hX, hc]; simp [f64mag_zero]
    rw [dur, hX0, hs]
    simp only [if_true]
    rw [Sprintf2f_two]
    rfl
  · obtain ⟨hne, hp, hn⟩ := Sprintf2f_hundredths c hc hc41
    rcases hcases with ⟨h, hcen⟩ | ⟨h, hcen⟩
    · have hs : shown d = (c : ℤ) := by rw [shown, hcen, if_neg (by omega)]
      have e2 : decide ((c : ℤ) < 0) = false := decide_eq_false (by omega)
      rw [dur, hX, if_pos h, hs, e2, Int.natAbs_ofNat]
      simp only [if_neg hne]
      exact hp
    · have hs : shown d = -(c : ℤ) := by rw [shown, hcen, if_neg (by omega)]
      have e2 : decide (-(c : ℤ) < 0) = true := decide_eq_true (by omega)
      have hda : ¬ d = a := by have := hca hc; omega
      rw [dur, hX, if_neg hda, hs, e2, Int.natAbs_neg, Int.natAbs_ofNat]
      simp only [if_neg (neg_ne_zero.mpr hne)]
      exact hn

/-! ## Playlist builder -/

theorem walk_own (fmt : Time → String) (done : Bool) :
    ∀ (items : List Item) (ps : Time) (pd : Int), (∀ x ∈ items, x.Start.IsZero = false) →
      walk fmt done ps pd items = ownEntries fmt items := by
  intro items
  induction items with
  | nil => intro ps pd _; rfl
  | cons item rest ih =>
    intro ps pd h
    have hz : item.Start.IsZero = false := h item (List.mem_cons_self _ _)
    simp only [walk, hz, Bool.false_and, Bool.false_eq_true, if_false, ownEntries]
    rw [ih item.Start item.Duration (fun x hx => h x (List.mem_cons_of_mem _ hx))]

theorem walk_tail (fmt : Time → String) (z : Item) (post : List Item)
    (hz : z.Start.IsZero = true) :
    ∀ (pre : List Item) (ps : Time) (pd : Int), (∀ x ∈ pre, x.Start.IsZero = false) →
      walk fmt false ps pd (pre ++ z :: post) =
        ownEntries fmt pre ++ writeItem fmt
          (match pre.getLast? with
            | none => ps.Add pd
            | some p => p.Start.Add p.Duration) z := by
  intro pre
  induction pre with
  | nil =>
    intro ps pd _
    simp [walk, hz, ownEntries]
  | cons item rest ih =>
    intro ps pd h
    have hi : item.Start.IsZero = false := h item (List.mem_cons_self _ _)
    have h2 := ih item.Start item.Duration (fun x hx => h x (List.mem_cons_of_mem _ hx))
    have key : (match (item :: rest).getLast? with
          | none => ps.Add pd
          | some p => p.Start.Add p.Duration) =
        (match rest.getLast? with
          | none => item.Start.Add item.Duration
          | some p => p.Start.Add p.Duration) := by
      cases rest with
      | nil => rfl
      | cons r rs =>
        rw [List.getLast?_cons_cons]
        cases hl : (r :: rs).getLast? with
        | none => simp at hl
        | some p => rfl
    simp only [List.cons_append, walk, hi, Bool.false_and, Bool.false_eq_true, if_false,
      ownEntries, List.append_assoc]
    rw [key]
    exact congrArg (fun l => writeItem fmt item.Start item ++ l) h2

theorem walk_done (fmt : Time → String) :
    ∀ (items : List Item) (ps : Time) (pd : Int),
      walk fmt true ps pd items =
        ownEntries fmt (items.takeWhile (fun it => !it.Start.IsZero)) := by
  intro items
  induction items with
  | nil => intro ps pd; rfl
  | cons item rest ih =>
    intro ps pd
    cases hz : item.Start.IsZero with
    | true => simp [walk, hz, List.takeWhile, ownEntries]
    | false =>
      simp only [walk, hz, Bool.false_and, Bool.false_eq_true, if_false, List.takeWhile,
        Bool.not_false, ownEntries]
      rw [ih]

/-- Every list of segments either has only real starts or splits at its first zero start. -/
theorem first_zero_start_split (items : List Item) :
    (∀ x ∈ items, x.Start.IsZero = false) ∨
    ∃ pre z post, items = pre ++ z :: post ∧ (∀ x ∈ pre, x.Start.IsZero = false) ∧
      z.Start.IsZero = true := by
  induction items with
  | nil => left; intro x hx; simp at hx
  | cons item rest ih =>
    cases hz : item.Start.IsZero with
    | true => right; exact ⟨[], item, rest, rfl, by intro x hx; simp at hx, hz⟩
    | false =>
      rcases ih with h | ⟨pre, z, post, he, hp, hzz⟩
      · left
        intro x hx
        rcases List.mem_cons.mp hx with e | e
        · rw [e]; exact hz
        · exact h x e
      · right
        refine ⟨item :: pre, z, post, by rw [he]; rfl, ?_, hzz⟩
        intro x hx
        rcases List.mem_cons.mp hx with e | e
        · rw [e]; exact hz
        · exact hp x e

theorem newline_ne_ENDLIST (s : String) : s ++ "\n" ≠ ENDLIST := by
  intro h
  have hd := congrArg (fun t : String => t.data.getLast?) h
  simp [ENDLIST] at hd

theorem header_ne_ENDLIST (n : Int) : header n ≠ ENDLIST :=
  newline_ne_ENDLIST _

theorem writeItem_ne_ENDLIST (fmt : Time → String) (start : Time) (item : Item) :
    ENDLIST ∉ writeItem fmt start item := by
  intro h
  simp only [writeItem, List.mem_cons, List.mem_singleton, List.not_mem_nil, or_false] at h
  rcases h with h | h | h
  · exact newline_ne_ENDLIST _ h.symm
  · have : "#EXTINF: " ++ Sprintf2f (dur item.Duration) ++ ",live\n"
        = ("#EXTINF: " ++ Sprintf2f (dur item.Duration) ++ ",live") ++ "\n" := by
      apply String.ext; simp [String.data_append]
    rw [this] at h
    exact newline_ne_ENDLIST _ h.symm
  · have : item.Name ++ ".ts\n" = (item.Name ++ ".ts") ++ "\n" := by
      apply String.ext; simp [String.data_append]
    rw [this] at h
    exact newline_ne_ENDLIST _ h.symm

theorem ownEntries_ne_ENDLIST (fmt : Time → String) (items : List Item) :
    ENDLIST ∉ ownEntries fmt items := by
  induction items with
  | nil => simp [ownEntries]
  | cons item rest ih =>
    simp only [ownEntries, List.mem_append, not_or]
    exact ⟨writeItem_ne_ENDLIST fmt _ item, ih⟩

theorem ownEntries_length (fmt : Time → String) (items : List Item) :
    (ownEntries fmt items).length = 3 * items.length := by
  induction items with
  | nil => rfl
  | cons item rest ih => simp [ownEntries, writeItem, ih]; omega

theorem ownEntries_date (fmt : Time → String) :
    ∀ (items : List Item) (i : Nat) (h : i < items.length),
      (ownEntries fmt items)[3 * i]? =
        some ("#EXT-X-PROGRAM-DATE-TIME:" ++ fmt (items.get ⟨i, h⟩).Start ++ "\n") := by
  intro items
  induction items with
  | nil => intro i h; simp at h
  | cons item rest ih =>
    intro i h
    cases i with
    | zero => simp [ownEntries, writeItem]
    | succ j =>
      have hj : j < rest.length := by simpa using h
      have := ih j hj
      simp only [ownEntries, writeItem, List.get_eq_getElem, List.getElem_cons_succ] at this ⊢
      rw [show 3 * (j + 1) = 3 * j + 3 by ring]
      simpa using this

/-! ## Decimal text -/

theorem toDigitsCore_length (fuel : Nat) :
    ∀ (n : Nat) (ds : List Char), ds.length ≤ (Nat.toDigitsCore 10 fuel n ds).length := by
  induction fuel with
  | zero => intro n ds; simp [Nat.toDigitsCore]
  | succ f ih =>
    intro n ds
    simp only [Nat.toDigitsCore]
    split
    · simp
    · exact le_trans (by simp) (ih _ _)

theorem repr_zero (n : Nat) (h : (Nat.repr n).data = ['0']) : n = 0 := by
  have h1 : Nat.toDigits 10 n = ['0'] := by simpa [Nat.repr, List.asString] using h
  unfold Nat.toDigits at h1
  simp only [Nat.toDigitsCore] at h1
  by_cases h10 : n / 10 = 0
  · rw [if_pos h10] at h1
    have hd : Nat.digitChar (n % 10) = '0' := by simpa using h1
    have hlt : n % 10 < 10 := Nat.mod_lt _ (by norm_num)
    have : ∀ x : Fin 10, Nat.digitChar x.val = '0' → x.val = 0 := by decide
    have := this ⟨n % 10, hlt⟩ hd
    simp only at this
    omega
  · rw [if_neg h10] at h1
    exfalso
    obtain ⟨k, hk⟩ : ∃ k, n = k + 1 := ⟨n - 1, by omega⟩
    rw [hk] at h1
    simp only [Nat.toDigitsCore] at h1
    have hlen := congrArg List.length h1
    split at hlen
    · simp at hlen
    · have := toDigitsCore_length k ((k + 1) / 10 / 10)
        [Nat.digitChar ((k + 1) / 10 % 10), Nat.digitChar ((k + 1) % 10)]
      simp only [List.length_cons, List.length_nil] at this hlen
      omega

theorem centiText_zero (neg : Bool) (h : Nat) (heq : centiText neg h = "0.00") : h = 0 := by
  have hd := congrArg String.data heq
  simp only [centiText, String.data_append] at hd
  cases neg with
  | true => simp at hd
  | false =>
    have hd2 : (Nat.repr (h / 100)).data ++
        ['.', Nat.digitChar (h % 100 / 10), Nat.digitChar (h % 10)] = ['0'] ++ ['.', '0', '0'] := by
      simpa using hd
    obtain ⟨h1, h2⟩ := List.append_inj' hd2 rfl
    have hz := repr_zero _ h1
    simp only [List.cons.injEq, true_and, and_true] at h2
    have hdig : ∀ x : Fin 10, Nat.digitChar x.val = '0' → x.val = 0 := by decide
    have ha := hdig ⟨h % 100 / 10, by omega⟩ h2.1
    have hb := hdig ⟨h % 10, by omega⟩ h2.2
    simp only at ha hb
    omega

theorem shown_ne_zero (d : Int) : shown d ≠ 0 := by
  unfold shown
  split_ifs with h
  · norm_num
  · exact h

theorem centis_nearest (d : Int) : |centis d * 10000000 - d| ≤ 5000000 := by
  rw [abs_le]
  unfold centis
  split_ifs <;> constructor <;> omega

theorem Sprintf2f_four_seconds : Sprintf2f (dur (4 * Second)) = "4.00" := by
  rw [Sprintf2f_dur (4 * Second) (by decide) (by decide)]
  decide

/-! ## Occurrences of the marker in the text -/

theorem foldl_append_data (l : List String) :
    ∀ acc : String, (l.foldl (fun a b => a ++ b) acc).data = acc.data ++ flat l := by
  induction l with
  | nil => intro acc; simp [flat]
  | cons s rest ih => intro acc; simp [flat, ih, String.data_append]

theorem join_data (l : List String) : (String.join l).data = flat l := by
  have := foldl_append_data l ""
  simpa [String.join] using this

theorem flat_append (a b : List String) : flat (a ++ b) = flat a ++ flat b := by
  induction a with
  | nil => rfl
  | cons s rest ih => simp [flat, ih]

theorem Neutral.append {a b : List Char} (ha : Neutral a) (hb : Neutral b) : Neutral (a ++ b) := by
  intro rest
  rw [List.append_assoc, ha, hb]

theorem neutral_of_no_hash (s : List Char) (h : '#' ∉ s) : Neutral s := by
  induction s with
  | nil => intro rest; rfl
  | cons c cs ih =>
    intro rest
    have hc : c ≠ '#' := fun e => h (by simp [e])
    have hcs : '#' ∉ cs := fun e => h (List.mem_cons_of_mem _ e)
    have hp : ENDLIST.data.isPrefixOf (c :: (cs ++ rest)) = false := by
      have : ENDLIST.data = '#' :: "EXT-X-ENDLIST".data := rfl
      rw [this]
      simp [List.isPrefixOf, hc]
      intro e; exact absurd e.symm hc
    show (if ENDLIST.data.isPrefixOf (c :: (cs ++ rest)) = true then 1 else 0) +
        occurrences ENDLIST.data (cs ++ rest) = occurrences ENDLIST.data rest
    rw [hp, ih hcs rest]
    simp

theorem neutral_head : Neutral
    "#EXTM3U\n#EXT-X-TARGETDURATION:4\n#EXT-X-VERSION:4\n#EXT-X-MEDIA-SEQUENCE:".data := by
  intro rest
  simp [occurrences, List.isPrefixOf, ENDLIST]

theorem neutral_date : Neutral "#EXT-X-PROGRAM-DATE-TIME:".data := by
  intro rest
  simp [occurrences, List.isPrefixOf, ENDLIST]

theorem neutral_extinf : Neutral "#EXTINF: ".data := by
  intro rest
  simp [occurrences, List.isPrefixOf, ENDLIST]


theorem digitChar_ne_hash (n : Nat) (h : n < 10) : Nat.digitChar n ≠ '#' := by
  have hall : ∀ x : Fin 10, Nat.digitChar x.val ≠ '#' := by decide
  exact hall ⟨n, h⟩

theorem toDigitsCore_no_hash (fuel : Nat) :
    ∀ (n : Nat) (ds : List Char), '#' ∉ ds → '#' ∉ Nat.toDigitsCore 10 fuel n ds := by
  induction fuel with
  | zero => intro n ds h; simpa [Nat.toDigitsCore] using h
  | succ f ih =>
    intro n ds h
    have hcons : '#' ∉ Nat.digitChar (n % 10) :: ds := by
      intro hm
      rcases List.mem_cons.mp hm with e | e
      · exact digitChar_ne_hash _ (Nat.mod_lt _ (by norm_num)) e.symm
      · exact h e
    simp only [Nat.toDigitsCore]
    split
    · exact hcons
    · exact ih _ _ hcons

theorem repr_no_hash (n : Nat) : '#' ∉ (Nat.repr n).data := by
  have := toDigitsCore_no_hash (n + 1) n [] (by simp)
  simpa [Nat.repr, Nat.toDigits, List.asString] using this

theorem Sprintd_no_hash (n : Int) : '#' ∉ (Sprintd n).data := by
  unfold Sprintd
  split
  · simp only [String.data_append, List.mem_append, not_or]
    exact ⟨by decide, repr_no_hash _⟩
  · exact repr_no_hash _

theorem centiText_no_hash (neg : Bool) (h : Nat) : '#' ∉ (centiText neg h).data := by
  simp only [centiText, String.data_append, List.mem_append, not_or, List.mem_cons,
    List.mem_singleton, List.not_mem_nil, or_false]
  refine ⟨⟨⟨?_, repr_no_hash _⟩, by decide⟩, ?_⟩
  · cases neg <;> decide
  · exact ⟨fun e => digitChar_ne_hash _ (by omega) e.symm,
      fun e => digitChar_ne_hash _ (by omega) e.symm⟩

theorem neutral_header (n : Int) : Neutral (header n).data := by
  have : (header n).data =
      "#EXTM3U\n#EXT-X-TARGETDURATION:4\n#EXT-X-VERSION:4\n#EXT-X-MEDIA-SEQUENCE:".data ++
        ((Sprintd n).data ++ "\n".data) := by
    simp [header, String.data_append]
  rw [this]
  exact neutral_head.append
    ((neutral_of_no_hash _ (Sprintd_no_hash n)).append (neutral_of_no_hash _ (by decide)))

theorem neutral_flat (l : List String) (h : ∀ s ∈ l, Neutral s.data) : Neutral (flat l) := by
  induction l with
  | nil => intro rest; rfl
  | cons s rest ih =>
    exact (h s (List.mem_cons_self _ _)).append (ih (fun x hx => h x (List.mem_cons_of_mem _ hx)))

theorem neutral_writeItem (fmt : Time → String) (start : Time) (item : Item)
    (hname : '#' ∉ item.Name.data) (hfmt : '#' ∉ (fmt start).data) :
    ∀ s ∈ writeItem fmt start item, Neutral s.data := by
  intro s hs
  simp only [writeItem, List.mem_cons, List.mem_singleton, List.not_mem_nil, or_false] at hs
  rcases hs with rfl | rfl | rfl
  · simp only [String.data_append, List.append_assoc]
    exact neutral_date.append
      ((neutral_of_no_hash _ hfmt).append (neutral_of_no_hash _ (by decide)))
  · simp only [String.data_append, List.append_assoc]
    exact neutral_extinf.append
      ((neutral_of_no_hash _ (centiText_no_hash _ _)).append (neutral_of_no_hash _ (by decide)))
  · simp only [String.data_append]
    exact (neutral_of_no_hash _ hname).append (neutral_of_no_hash _ (by decide))

theorem neutral_ownEntries (fmt : Time → String) (items : List Item)
    (hname : ∀ it ∈ items, '#' ∉ it.Name.data) (hfmt : ∀ t, '#' ∉ (fmt t).data) :
    ∀ s ∈ ownEntries fmt items, Neutral s.data := by
  induction items with
  | nil => intro s hs; simp [ownEntries] at hs
  | cons item rest ih =>
    intro s hs
    simp only [ownEntries, List.mem_append] at hs
    rcases hs with h | h
    · exact neutral_writeItem fmt _ item (hname item (List.mem_cons_self _ _)) (hfmt _) s h
    · exact ih (fun it hit => hname it (List.mem_cons_of_mem _ hit)) s h

theorem sampleLayout_no_hash (t : Time) : '#' ∉ (sampleLayout t).data :=
  Sprintd_no_hash t.nsec

/-! ## Claims about the playlist -/

/-- **C7**: for a segment duration `d` (a `time.Duration`, so a 64-bit count of
nanoseconds) the duration line is `#EXTINF: ` followed by `shown d` hundredths written with
two decimals, where `shown d` is `d` rounded to the nearest hundredth of a second
(`centis d`, at most half a hundredth away from `d`), except that a rounded value of zero is
shown as 2.00; the text `0.00` is never written. -/
theorem extinf_two_decimals (fmt : Time → String) (start : Time) (item : Item)
    (hmin : -2 ^ 63 ≤ item.Duration) (hmax : item.Duration < 2 ^ 63) :
    (writeItem fmt start item)[1]? =
      some ("#EXTINF: " ++
        centiText (decide (shown item.Duration < 0)) (shown item.Duration).natAbs ++ ",live\n") ∧
    shown item.Duration = (if centis item.Duration = 0 then 200 else centis item.Duration) ∧
    |centis item.Duration * 10000000 - item.Duration| ≤ 5000000 ∧
    (centis item.Duration = 0 → Sprintf2f (dur item.Duration) = "2.00") ∧
    Sprintf2f (dur item.Duration) ≠ "0.00" := by
  have hfmt := Sprintf2f_dur item.Duration hmin hmax
  refine ⟨?_, rfl, centis_nearest _, ?_, ?_⟩
  · simp [writeItem, hfmt]
  · intro h0
    rw [hfmt, shown, if_pos h0]
    decide
  · rw [hfmt]
    intro h
    have := centiText_zero _ _ h
    exact shown_ne_zero item.Duration (Int.natAbs_eq_zero.mp this)

/-- Witness of `extinf_two_decimals`: a segment of 4.004 seconds. -/
theorem extinf_two_decimals_witness :
    (writeItem sampleLayout Time.zero ⟨"seg0", 0, ⟨5000000000⟩, 4004000000⟩)[1]? =
      some ("#EXTINF: " ++
        centiText (decide (shown 4004000000 < 0)) (shown 4004000000).natAbs ++ ",live\n") :=
  (extinf_two_decimals sampleLayout Time.zero ⟨"seg0", 0, ⟨5000000000⟩, 4004000000⟩
    (by decide) (by decide)).1

/-- **C5**: a pass over a cache that is not done. Let `pre` be segments with real starts,
`z` a segment whose own start is zero and `post` whatever follows it. The pass writes the
segments of `pre` with their own starts, then `z` with the start of the previous written
segment plus its duration (`tailStart pre`), and nothing after it: neither a segment of `post`
nor an end marker. A list with no zero start is written whole with its own starts, so an
entry with a synthesized start appears at most once and only as the last one. With
`post = []` this is the list in which only the last segment has a zero start. -/
theorem tail_segment_start (fmt : Time → String) (pre : List Item) (z : Item) (post : List Item)
    (hpre : ∀ x ∈ pre, x.Start.IsZero = false) (hz : z.Start.IsZero = true) :
    render fmt (pre ++ z :: post) false =
      [header (seqNum (pre ++ z :: post))] ++ ownEntries fmt pre ++
        writeItem fmt (tailStart pre) z ∧
    (render fmt (pre ++ z :: post) false).getLast? = some (z.Name ++ ".ts\n") ∧
    render fmt (pre ++ [z]) false =
      [header (seqNum (pre ++ [z]))] ++ ownEntries fmt pre ++
        [("#EXT-X-PROGRAM-DATE-TIME:" ++ fmt (tailStart pre) ++ "\n"),
         ("#EXTINF: " ++ Sprintf2f (dur z.Duration) ++ ",live\n"), (z.Name ++ ".ts\n")] ∧
    render fmt pre false = [header (seqNum pre)] ++ ownEntries fmt pre := by
  have hw : ∀ post, render fmt (pre ++ z :: post) false =
      [header (seqNum (pre ++ z :: post))] ++ ownEntries fmt pre ++
        writeItem fmt (tailStart pre) z := by
    intro post
    have hwalk : walk fmt false Time.zero 0 (pre ++ z :: post) =
        ownEntries fmt pre ++ writeItem fmt (tailStart pre) z :=
      walk_tail fmt z post hz pre Time.zero 0 hpre
    simp only [render, hwalk, Bool.false_eq_true, if_false, List.append_nil, List.append_assoc]
  refine ⟨hw post, ?_, ?_, ?_⟩
  · rw [hw post, writeItem]
    have hsplit : ∀ (l : List String) (a b c : String), l ++ [a, b, c] = (l ++ [a, b]) ++ [c] := by
      intro l a b c; simp
    rw [hsplit, List.getLast?_append]
    rfl
  · rw [hw []]
    rfl
  · simp only [render, walk_own fmt false pre Time.zero 0 hpre, Bool.false_eq_true, if_false,
      List.append_nil]

/-- Witness of `tail_segment_start`: two finished segments, one in progress, one behind it. -/
theorem tail_segment_start_witness :
    render sampleLayout
        ([⟨"a", 7, ⟨5000000000⟩, 4000000000⟩, ⟨"b", 8, ⟨9000000000⟩, 3000000000⟩] ++
          ⟨"c", 9, Time.zero, 1000000000⟩ :: [⟨"d", 10, ⟨20000000000⟩, 1⟩]) false =
      [header 7] ++
        ownEntries sampleLayout
          [⟨"a", 7, ⟨5000000000⟩, 4000000000⟩, ⟨"b", 8, ⟨9000000000⟩, 3000000000⟩] ++
        writeItem sampleLayout ⟨12000000000⟩ ⟨"c", 9, Time.zero, 1000000000⟩ :=
  (tail_segment_start sampleLayout
    [⟨"a", 7, ⟨5000000000⟩, 4000000000⟩, ⟨"b", 8, ⟨9000000000⟩, 3000000000⟩]
    ⟨"c", 9, Time.zero, 1000000000⟩ [⟨"d", 10, ⟨20000000000⟩, 1⟩] (by decide) (by decide)).1

/-- **C6**, as amended: a pass over a cache that is done writes the header, then the segments
before the first zero start, each with its own start, and then the end-of-list marker. The walk
stops at the first segment whose start is zero without writing it, so no start is synthesized.
The marker is the last string written, it is written exactly once, and the playlist text ends
with it. When no segment name and no formatted timestamp contains the character `#`, the
marker begins at exactly one position of the text. -/
theorem end_of_stream (fmt : Time → String) (items : List Item) :
    render fmt items true =
      [header (seqNum items)] ++
        ownEntries fmt (items.takeWhile (fun it => !it.Start.IsZero)) ++ [ENDLIST] ∧
    (∀ it ∈ items.takeWhile (fun it => !it.Start.IsZero), it.Start.IsZero = false) ∧
    (render fmt items true).count ENDLIST = 1 ∧
    (render fmt items true).getLast? = some ENDLIST ∧
    (∃ body, playlist fmt items true = body ++ ENDLIST) ∧
    ((∀ it ∈ items, '#' ∉ it.Name.data) → (∀ t, '#' ∉ (fmt t).data) →
      occurrences ENDLIST.data (playlist fmt items true).data = 1) := by
  have hr : render fmt items true =
      [header (seqNum items)] ++
        ownEntries fmt (items.takeWhile (fun it => !it.Start.IsZero)) ++ [ENDLIST] := by
    simp only [render, walk_done, if_true]
  refine ⟨hr, ?_, ?_, ?_, ?_, ?_⟩
  · intro it hit
    have := List.mem_takeWhile_imp hit
    simpa using this
  · rw [hr, List.count_append, List.count_append, List.count_singleton_self,
      List.count_eq_zero_of_not_mem (ownEntries_ne_ENDLIST fmt _),
      List.count_eq_zero_of_not_mem]
    intro hmem
    exact header_ne_ENDLIST _ (List.mem_singleton.mp hmem).symm
  · rw [hr, List.getLast?_append]
    simp
  · refine ⟨String.join ([header (seqNum items)] ++
      ownEntries fmt (items.takeWhile (fun it => !it.Start.IsZero))), ?_⟩
    rw [playlist, hr]
    simp only [String.join, List.foldl_append, List.foldl_cons, List.foldl_nil]
  · intro hname hfmt
    have hn : ∀ s ∈ [header (seqNum items)] ++
        ownEntries fmt (items.takeWhile (fun it => !it.Start.IsZero)), Neutral s.data := by
      intro s hs
      rcases List.mem_append.mp hs with h | h
      · rw [List.mem_singleton.mp h]
        exact neutral_header _
      · exact neutral_ownEntries fmt _
          (fun it hit => hname it ((List.takeWhile_prefix _).subset hit)) hfmt s h
    rw [playlist, join_data, hr, flat_append, neutral_flat _ hn]
    decide

/-- Witness of `end_of_stream`: two finished segments and a placeholder behind them. -/
theorem end_of_stream_witness :
    occurrences ENDLIST.data
      (playlist sampleLayout [⟨"a", 0, ⟨5000000000⟩, 4000000000⟩,
        ⟨"b", 1, ⟨9000000000⟩, 4000000000⟩, ⟨"c", 2, Time.zero, 0⟩] true).data = 1 :=
  (end_of_stream sampleLayout [⟨"a", 0, ⟨5000000000⟩, 4000000000⟩,
    ⟨"b", 1, ⟨9000000000⟩, 4000000000⟩, ⟨"c", 2, Time.zero, 0⟩]).2.2.2.2.2
    (by decide) sampleLayout_no_hash

/-- **C6**, counterexample: a done cache with one finished segment named `x#EXT-X-ENDLIST`.
The marker is written once, yet it begins at two positions of the playlist text: inside the
line of the segment's file name and at the end. -/
theorem marker_twice_in_text :
    (render sampleLayout [⟨"x#EXT-X-ENDLIST", 0, ⟨5000000000⟩, 4 * Second⟩] true).count ENDLIST
      = 1 ∧
    occurrences ENDLIST.data
      (playlist sampleLayout [⟨"x#EXT-X-ENDLIST", 0, ⟨5000000000⟩, 4 * Second⟩] true).data
      = 2 := by
  have hr : render sampleLayout [⟨"x#EXT-X-ENDLIST", 0, ⟨5000000000⟩, 4 * Second⟩] true =
      [header 0, "#EXT-X-PROGRAM-DATE-TIME:" ++ sampleLayout ⟨5000000000⟩ ++ "\n",
       "#EXTINF: " ++ Sprintf2f (dur (4 * Second)) ++ ",live\n", "x#EXT-X-ENDLIST.ts\n",
       ENDLIST] := rfl
  rw [playlist, hr, Sprintf2f_four_seconds]
  constructor
  · decide
  · have hdate : Neutral ("#EXT-X-PROGRAM-DATE-TIME:" ++ sampleLayout ⟨5000000000⟩ ++ "\n").data := by
      simp only [String.data_append, List.append_assoc]
      exact neutral_date.append
        ((neutral_of_no_hash _ (sampleLayout_no_hash _)).append (neutral_of_no_hash _ (by decide)))
    have hinf : Neutral ("#EXTINF: " ++ "4.00" ++ ",live\n").data := by
      simp only [String.data_append, List.append_assoc]
      exact neutral_extinf.append
        ((neutral_of_no_hash _ (by decide)).append (neutral_of_no_hash _ (by decide)))
    rw [join_data]
    simp only [flat]
    rw [neutral_header 0, hdate, hinf]
    decide

/-- **C9**: for segments with strictly increasing start times (real starts: the zero time is
the mark of a segment that has no start yet), the pass writes one entry per segment in the
order of the input: the list written is the header, the entries with the segments' own starts,
and the end marker when the cache is done; entry `i` is dated with the start of segment `i`;
and these starts are in non-decreasing order. -/
theorem entries_in_order (fmt : Time → String) (items : List Item) (done : Bool)
    (hreal : ∀ x ∈ items, x.Start.IsZero = false)
    (hinc : items.Pairwise (fun a b => a.Start.Before b.Start)) :
    render fmt items done =
      [header (seqNum items)] ++ ownEntries fmt items ++ (if done then [ENDLIST] else []) ∧
    (render fmt items done).length = 1 + 3 * items.length + (if done then 1 else 0) ∧
    (∀ (i : Nat) (h : i < items.length),
      (render fmt items done)[1 + 3 * i]? =
        some ("#EXT-X-PROGRAM-DATE-TIME:" ++ fmt (items.get ⟨i, h⟩).Start ++ "\n")) ∧
    (items.map (fun it => it.Start.nsec)).Pairwise (fun a b => a ≤ b) := by
  have hr : render fmt items done =
      [header (seqNum items)] ++ ownEntries fmt items ++ (if done then [ENDLIST] else []) := by
    simp only [render, walk_own fmt done items Time.zero 0 hreal]
  refine ⟨hr, ?_, ?_, ?_⟩
  · rw [hr]
    simp only [List.length_append, List.length_singleton, ownEntries_length]
    split <;> simp
  · intro i h
    rw [hr, List.append_assoc, List.singleton_append, Nat.add_comm 1 (3 * i),
      List.getElem?_cons_succ, List.getElem?_append_left (by rw [ownEntries_length]; omega)]
    exact ownEntries_date fmt items i h
  · rw [List.pairwise_map]
    exact hinc.imp (fun h => le_of_lt h)

/-- Witness of `entries_in_order`: two finished segments. -/
theorem entries_in_order_witness :
    render sampleLayout [⟨"a", 0, ⟨5000000000⟩, 4000000000⟩, ⟨"b", 1, ⟨9000000000⟩, 4000000000⟩]
        true =
      [header 0] ++
        ownEntries sampleLayout
          [⟨"a", 0, ⟨5000000000⟩, 4000000000⟩, ⟨"b", 1, ⟨9000000000⟩, 4000000000⟩] ++
        (if true = true then [ENDLIST] else []) :=
  (entries_in_order sampleLayout
    [⟨"a", 0, ⟨5000000000⟩, 4000000000⟩, ⟨"b", 1, ⟨9000000000⟩, 4000000000⟩] true
    (by decide) (by decide)).1

end Muxer
